import Mathlib

/-!
Shallow embedding of the core of the `sync-utils` repository:

* the `lamlock` combining lock (`src/crates/lamlock/src/{lib,node,bomb}.rs`
  together with its raw lock, whose source sits at
  `src/crates/lambda-lock/src/rawlock.rs` in this snapshot), and
* the `vdso-rng` opaque-state machinery
  (`src/crates/vdso-rng/src/{lib,config,pool}.rs`).

Concurrency is sequentialized: atomics become pure state transitions, a
spin loop that can only be ended by another thread is modelled as the
absence of a result (`Option.none`), and the per-lock queue is the list of
nodes in the order their tail swaps linearized.
-/

set_option autoImplicit false

namespace SyncUtils

/-! ### Raw lock status (`rawlock.rs`: UNLOCKED = 0, LOCKED = 1, POISONED = 2) -/

inductive LockStatus : Type where
  | Unlocked : LockStatus
  | Locked : LockStatus
  | Poisoned : LockStatus
deriving DecidableEq, Repr

/-- Error type of `lamlock::LockPoisoned`. -/
inductive LockPoisoned : Type where
  | mk : LockPoisoned
deriving DecidableEq, Repr

/-- Error type of `lamlock::LockNotPoisoned`. -/
inductive LockNotPoisoned : Type where
  | mk : LockNotPoisoned
deriving DecidableEq, Repr

/-- Embeds `core::ops::ControlFlow<R, R>` as used by `Lock::inspect_poison`. -/
inductive CFlow (R : Type) : Type where
  | Continue : R → CFlow R
  | Break : R → CFlow R
deriving DecidableEq, Repr

/-- From `RawLock::try_acquire`: CAS UNLOCKED to LOCKED; `Ok(true)` on success,
`Ok(false)` when LOCKED is observed, `Err(LockPoisoned)` when POISONED. -/
def rawTryAcquire : LockStatus → Except LockPoisoned (Bool × LockStatus)
  | .Unlocked => .ok (true, .Locked)
  | .Locked => .ok (false, .Locked)
  | .Poisoned => .error .mk

/-- From `RawLock::acquire`: loop the CAS, spinning while the word reads LOCKED.
Sequentially no other thread can end the spin, so the LOCKED case yields no
result (`none` models the caller blocking in the spin loop). -/
def rawAcquire : LockStatus → Option (Except LockPoisoned LockStatus)
  | .Unlocked => some (.ok .Locked)
  | .Locked => none
  | .Poisoned => some (.error .mk)

/-- The facade state: the raw lock's status word plus the protected datum of
`Lock<T>` (`lamlock/src/lib.rs`). -/
structure LockSt (T : Type) : Type where
  status : LockStatus
  data : T
deriving DecidableEq, Repr

/-- From `Lock::poison`: `raw.acquire()?` then `raw.poison()` (a release store
of POISONED). Errors leave the state unchanged. -/
def lockPoison {T : Type} (s : LockSt T) :
    Option (Except LockPoisoned Unit × LockSt T) :=
  match rawAcquire s.status with
  | none => none
  | some (.error e) => some (.error e, s)
  | some (.ok _) => some (.ok (), { s with status := .Poisoned })

/-- Modelled from the spec: `RawLock::acquire_poison` is called by
`Lock::inspect_poison` but is absent from the sources under `src/`
(the copy of `rawlock.rs` in this snapshot lacks it). Spec section 4.5 states
that `inspect_poison` requires the POISONED state and fails with
`LockNotPoisoned` otherwise, taking the lock exclusively when it succeeds. -/
def rawAcquirePoison : LockStatus → Except LockNotPoisoned LockStatus
  | .Poisoned => .ok .Locked
  | _ => .error .mk

/-- From `Lock::inspect_poison`: `raw.acquire_poison()?`, then run the closure
on the datum; `Continue` re-poisons the lock keeping the result, `Break`
releases it to UNLOCKED. The closure `T → T × CFlow R` is the purification of
`FnOnce(&mut T) -> ControlFlow<R, R>`. -/
def lockInspectPoison {T R : Type} (f : T → T × CFlow R) (s : LockSt T) :
    Except LockNotPoisoned R × LockSt T :=
  match rawAcquirePoison s.status with
  | .error e => (.error e, s)
  | .ok _ =>
    match f s.data with
    | (d, .Continue r) => (.ok r, ⟨.Poisoned, d⟩)
    | (d, .Break r) => (.ok r, ⟨.Unlocked, d⟩)

/-- From `Lock::unpoison`: literally `inspect_poison(|_| ControlFlow::Break(()))`. -/
def lockUnpoison {T : Type} (s : LockSt T) :
    Except LockNotPoisoned Unit × LockSt T :=
  lockInspectPoison (fun d => (d, .Break ())) s

/-- From `Node::attach` with a null previous tail and no other attacher: the
caller becomes combiner via `raw.acquire()?`, runs its own thunk, closes the
queue and releases the lock. Closures are purified as `T → T × R`. -/
def runSlowlySolo {T R : Type} (f : T → T × R) (s : LockSt T) :
    Option (Except LockPoisoned R × LockSt T) :=
  match rawAcquire s.status with
  | none => none
  | some (.error e) => some (.error e, s)
  | some (.ok _) =>
    match f s.data with
    | (d, r) => some (.ok r, ⟨.Unlocked, d⟩)

/-- From `Lock::run` with an empty queue (`has_tail` false): try the fast path
(`try_acquire`, run inline under the light bomb, release), falling back to the
slow path on contention; a poisoned word propagates through the `?`. -/
def lockRun {T R : Type} (f : T → T × R) (s : LockSt T) :
    Option (Except LockPoisoned R × LockSt T) :=
  match rawTryAcquire s.status with
  | .error e => some (.error e, s)
  | .ok (true, _) =>
    match f s.data with
    | (d, r) => some (.ok r, ⟨.Unlocked, d⟩)
  | .ok (false, _) => runSlowlySolo f s

/-! ### Node status constants (`node.rs`) and the combiner loop -/

def WAITING : Nat := 0

def DONE : Nat := 1

def HEAD : Nat := 2

def SLEEPING : Nat := 3

def POISONED : Nat := 4

/-- The essence of a `CombinedNode` from `Lock::run_slowly`: an identity for
the enqueuing invocation plus the purified closure writing back its result. -/
structure NodeC (T R : Type) : Type where
  id : Nat
  closure : T → T × R

/-- From the combiner loop of `Node::attach` (lines 128-145 of `node.rs`):
starting at the head node, execute each node's thunk on the datum and follow
the `next` chain, recording which node ran and the result written into its
slot. The argument list is the queue in the order the tail swaps linearized. -/
def combinerRun {T R : Type} (q : List (NodeC T R)) (d : T) :
    T × List (Nat × R) :=
  match q with
  | [] => (d, [])
  | n :: rest =>
    match n.closure d with
    | (d1, r) =>
      match combinerRun rest d1 with
      | (d2, out) => (d2, (n.id, r) :: out)

/-- The datum left behind after a prefix of the queue has committed. -/
def commitState {T R : Type} (q : List (NodeC T R)) (d : T) : T :=
  q.foldl (fun a n => (n.closure a).1) d

/-- From `HeavyWeightBomb::drop` (`bomb.rs`): walk the chain from the bomb's
atom; while a successor exists wake the atom as POISONED and advance; when
`next` is null, `try_close` the tail and wake the last node as POISONED.
Sequentially the chain argument is the whole remaining queue, so the close
succeeds at its last element. The result records each wake message. -/
def bombWalk : List Nat → List (Nat × Nat)
  | [] => []
  | [a] => [(a, POISONED)]
  | a :: b :: rest => (a, POISONED) :: bombWalk (b :: rest)

/-- From `HeavyWeightBomb::drop`: dropping the inner `LightWeightBomb` first
poisons the raw lock, then the chain reaction walks the queue. -/
def bombDrop (chain : List Nat) : LockStatus × List (Nat × Nat) :=
  (.Poisoned, bombWalk chain)

/-! ### vdso-rng: errors, `LocalState::try_fill` and `LocalState::fill` -/

/-- Embeds `vdso_rng::Error`. -/
inductive RngError : Type where
  | PoolPoisoned : RngError
  | NotSupported : RngError
  | AllocationFailure : RngError
  | Errno : Int → RngError
deriving DecidableEq, Repr

/-- Value of `linux_raw_sys::errno::EAGAIN`. -/
def EAGAIN : Int := 11

/-- Value of `linux_raw_sys::errno::EINTR`. -/
def EINTR : Int := 4

/-- From `LocalState::try_fill`: the vDSO call's raw return value `r` becomes
`Err(Errno(-r))` when negative and `Ok(r as usize)` otherwise. The kernel call
itself is external; `r` is its result. -/
def tryFillModel (r : Int) : Except RngError Nat :=
  if r < 0 then .error (.Errno (-r)) else .ok r.toNat

/-- From `LocalState::fill`: while the buffer is non-empty, call `try_fill`;
on `Ok(filled)` advance the slice by `filled`; on `Errno(EAGAIN)` or
`Errno(EINTR)` retry; return any other error. The oracle list holds the raw
return value of each successive vDSO call; `none` means the loop is still
running when the oracle is exhausted (or that a slice `buf[filled..]` with
`filled` beyond the length trapped). The result carries the loop outcome, the
bytes still unfilled at exit, and the unconsumed oracle suffix. -/
def fillModel : List Int → Nat → Option (Except RngError Unit × Nat × List Int)
  | rs, 0 => some (.ok (), 0, rs)
  | [], _ + 1 => none
  | r :: rest, n + 1 =>
    match tryFillModel r with
    | .ok filled =>
      if filled ≤ n + 1 then fillModel rest (n + 1 - filled) else none
    | .error (.Errno e) =>
      if e = EAGAIN ∨ e = EINTR then fillModel rest (n + 1)
      else some (.error (.Errno e), n + 1, rest)
    | .error e => some (.error e, n + 1, rest)

/-! ### vdso-rng: `Config::new` arithmetic (`config.rs` and `pool.rs`) -/

/-- From `Config::new`: `guess_cpu_count().get() * size_of_opaque_states`. -/
def guessedBytes (cpus sizeOfStates : Nat) : Nat := cpus * sizeOfStates

/-- From `Config::new`:
`aligned_bytes = guessed_bytes + (page_size - (guessed_bytes % page_size))`. -/
def alignedBytes (guessed pageSize : Nat) : Nat :=
  guessed + (pageSize - guessed % pageSize)

/-- From `Config::new`: `states_per_page = page_size / size_of_opaque_states`. -/
def statesPerPageOf (pageSize sizeOfStates : Nat) : Nat :=
  pageSize / sizeOfStates

/-- From `Config::new`: `pages_per_block = aligned_bytes / page_size`. -/
def pagesPerBlockOf (guessed pageSize : Nat) : Nat :=
  alignedBytes guessed pageSize / pageSize

/-- The claim's wording for the rounding step: the least multiple of
`pageSize` greater than or equal to `guessed` (so an already aligned value is
left unchanged). Stated from the claim, for comparison with `alignedBytes`. -/
def claimRoundUpToPage (guessed pageSize : Nat) : Nat :=
  ((guessed + pageSize - 1) / pageSize) * pageSize

/-! ### vdso-rng: the opaque-state pool (`pool.rs`)

The pool keeps a circular doubly-linked list of blocks threaded through a
sentinel (`BlockHeader`), a cursor block, and a free count.  The embedding
represents the list in `sentinel.next` order (newest block first), the
sentinel as `Option.none` in the cursor, and a block's appendix freelist
cells as a `List Nat` of abstract addresses.  `mmap` is modelled by a
monotone bump allocator handing out fresh disjoint block bases. -/

/-- The numeric part of `pool::Config`. -/
structure PoolConfig : Type where
  pageSize : Nat
  sizeOfStates : Nat
  statesPerPage : Nat
  pagesPerBlock : Nat
deriving DecidableEq, Repr

/-- Number of state slots per block: `pages_per_block * states_per_page`. -/
def PoolConfig.statesPerBlock (cfg : PoolConfig) : Nat :=
  cfg.pagesPerBlock * cfg.statesPerPage

/-- Bytes in one mmap'd block: `page_size * pages_per_block`. -/
def PoolConfig.blockBytes (cfg : PoolConfig) : Nat :=
  cfg.pageSize * cfg.pagesPerBlock

/-- Facts `Config::new` establishes (counts positive, and
`states_per_page = page_size / size_of_opaque_states`). -/
structure PoolConfig.WF (cfg : PoolConfig) : Prop where
  size_pos : 0 < cfg.sizeOfStates
  spp_pos : 0 < cfg.statesPerPage
  ppb_pos : 0 < cfg.pagesPerBlock
  spp_eq : cfg.statesPerPage = cfg.pageSize / cfg.sizeOfStates

/-- From `Config::allocate_block`: the appendix freelist cells in counter
order; cell `j` holds the state at page `j / states_per_page`, slot
`j % states_per_page`, that is
`base + (j / spp) * page_size + (j % spp) * size_of_opaque_states`. -/
def blockStates (cfg : PoolConfig) (base : Nat) : List Nat :=
  (List.range cfg.statesPerBlock).map
    (fun j => base + j / cfg.statesPerPage * cfg.pageSize
      + j % cfg.statesPerPage * cfg.sizeOfStates)

/-- One block: its mmap base address and the current contents of its
appendix freelist cells. -/
structure Block : Type where
  base : Nat
  slots : List Nat
deriving DecidableEq, Repr

/-- The pool state: blocks in `sentinel.next` order (newest first), the
cursor (`none` is the sentinel), the free count, and the bump allocator's
next fresh base. -/
structure PoolSt : Type where
  blocks : List Block
  cursor : Option Nat
  freeCount : Nat
  nextBase : Nat
deriving DecidableEq, Repr

/-- From `Pool::new`: no blocks, cursor at the sentinel, free count 0. -/
def initPool : PoolSt := ⟨[], none, 0, 0⟩

/-- The `prev` pointer of block `c`: block `c - 1`, or the sentinel. -/
def cursorPrev (c : Nat) : Option Nat :=
  if c = 0 then none else some (c - 1)

/-- The `next` pointer of the cursor: from the sentinel it is the newest
block (index 0); from block `c` it is block `c + 1` or the sentinel. -/
def cursorNext (s : PoolSt) : Option Nat :=
  match s.cursor with
  | none => if s.blocks.isEmpty then none else some 0
  | some c => if c + 1 < s.blocks.length then some (c + 1) else none

/-- From `Pool::allocate` and `Config::allocate_block`: mmap a fresh block,
link it right after the sentinel, enumerate its state slots into the
appendix, point the cursor at it and set the free count to a full block. -/
def Pool.allocate (cfg : PoolConfig) (s : PoolSt) : PoolSt :=
  { blocks := ⟨s.nextBase, blockStates cfg s.nextBase⟩ :: s.blocks,
    cursor := some 0,
    freeCount := cfg.statesPerBlock,
    nextBase := s.nextBase + cfg.blockBytes }

/-- The tail of `Pool::get` after the possible allocation: decrement the
free count; read the freelist cell at the new count; when it reached 0,
move the cursor to the previous block and reset the count to a full block.
A dereference the Rust code could not justify yields `none`. -/
def Pool.pop (cfg : PoolConfig) (s1 : PoolSt) : Option (Nat × PoolSt) :=
  match s1.cursor with
  | none => none
  | some c =>
    match s1.blocks[c]? with
    | none => none
    | some blk =>
      match s1.freeCount with
      | 0 => none
      | k + 1 =>
        match blk.slots[k]? with
        | none => none
        | some p =>
          if k = 0 then
            some (p, { s1 with cursor := cursorPrev c,
                               freeCount := cfg.statesPerBlock })
          else
            some (p, { s1 with freeCount := k })

/-- From `Pool::get`: allocate when the cursor is at the sentinel, then pop
one state from the cursor block's freelist. -/
def Pool.get (cfg : PoolConfig) (s : PoolSt) : Option (Nat × PoolSt) :=
  Pool.pop cfg (if s.cursor = none then Pool.allocate cfg s else s)

/-- The tail of `Pool::recycle` after the possible cursor advance: write the
returned pointer into the freelist cell at the count and increment the
count.  A write through the sentinel or out of bounds (which the Rust code
could not justify) yields `none`. -/
def Pool.put (cfg : PoolConfig) (p : Nat) (s1 : PoolSt) : Option PoolSt :=
  match s1.cursor with
  | none => none
  | some c =>
    match s1.blocks[c]? with
    | none => none
    | some blk =>
      if s1.freeCount < blk.slots.length then
        some { s1 with
          blocks := s1.blocks.set c ⟨blk.base, blk.slots.set s1.freeCount p⟩,
          freeCount := s1.freeCount + 1 }
      else none

/-- From `Pool::recycle`: when the cursor block is locally full, advance the
cursor along `next` and zero the count, then write the pointer into the
cursor block's freelist. -/
def Pool.recycle (cfg : PoolConfig) (p : Nat) (s : PoolSt) : Option PoolSt :=
  Pool.put cfg p
    (if s.freeCount = cfg.statesPerBlock
     then { s with cursor := cursorNext s, freeCount := 0 }
     else s)

/-- The free cells the pool's discipline will still hand out: all slots of
the blocks strictly before the cursor, plus the first `fc` slots of the
cursor block. -/
def freeSlots : List Block → Nat → Nat → List Nat
  | [], _, _ => []
  | b :: _, 0, fc => b.slots.take fc
  | b :: rest, c + 1, fc => b.slots ++ freeSlots rest c fc

/-- The pool's free cells; empty when the cursor is at the sentinel. -/
def freeList (s : PoolSt) : List Nat :=
  match s.cursor with
  | none => []
  | some c => freeSlots s.blocks c s.freeCount

/-- Every state address carved out of the pool's blocks. -/
def allStates (cfg : PoolConfig) (s : PoolSt) : List Nat :=
  (s.blocks.map Block.base).flatMap (blockStates cfg)

/-- The bump allocator's bookkeeping: block bases descend from the bound in
steps of exactly one block. -/
def basesChain (cfg : PoolConfig) : List Nat → Nat → Prop
  | [], _ => True
  | b :: rest, n => b + cfg.blockBytes = n ∧ basesChain cfg rest b

/-- A well-formed usage step: `get` returns a pointer into the outstanding
multiset; `recycle` is called only with an outstanding pointer (the
`LocalState` ownership contract). -/
inductive PoolStep (cfg : PoolConfig) :
    PoolSt × Multiset Nat → PoolSt × Multiset Nat → Prop where
  | get {s s' : PoolSt} {out : Multiset Nat} {p : Nat} :
      Pool.get cfg s = some (p, s') → PoolStep cfg (s, out) (s', p ::ₘ out)
  | recycle {s s' : PoolSt} {out : Multiset Nat} {p : Nat} :
      p ∈ out → Pool.recycle cfg p s = some s' →
      PoolStep cfg (s, out) (s', out.erase p)

/-- States reachable from the fresh pool by well-formed `get`/`recycle`
sequences. -/
inductive PoolReach (cfg : PoolConfig) : PoolSt × Multiset Nat → Prop where
  | init : PoolReach cfg (initPool, 0)
  | step {a b : PoolSt × Multiset Nat} :
      PoolReach cfg a → PoolStep cfg a b → PoolReach cfg b

/-- The pool invariant: slot arrays have block size, bases come from the
bump allocator, the cursor is in range with a positive in-range count, the
free cells and the outstanding pointers partition the carved-out states,
and the carved-out states are distinct and bounded by the bump pointer. -/
structure PoolInv (cfg : PoolConfig) (s : PoolSt) (out : Multiset Nat) : Prop where
  slotsLen : ∀ b ∈ s.blocks, b.slots.length = cfg.statesPerBlock
  bases : basesChain cfg (s.blocks.map Block.base) s.nextBase
  cursorLt : ∀ c, s.cursor = some c → c < s.blocks.length
  fcPos : ∀ c, s.cursor = some c → 1 ≤ s.freeCount
  fcLe : ∀ c, s.cursor = some c → s.freeCount ≤ cfg.statesPerBlock
  perm : (freeList s : Multiset Nat) + out = (allStates cfg s : Multiset Nat)
  nodupAll : (allStates cfg s).Nodup
  bounded : ∀ p ∈ allStates cfg s, p < s.nextBase

/-! ### Helper lemmas for the combiner loop and the bomb walk -/

theorem combinerRun_length {T R : Type} (q : List (NodeC T R)) (d : T) :
    (combinerRun q d).2.length = q.length := by
  induction q generalizing d with
  | nil => rfl
  | cons n rest ih =>
    have hcr : combinerRun (n :: rest) d =
        ((combinerRun rest (n.closure d).1).1,
          (n.id, (n.closure d).2) :: (combinerRun rest (n.closure d).1).2) := by
      simp only [combinerRun]
    rw [hcr]
    simp [ih]

theorem combinerRun_fst {T R : Type} (q : List (NodeC T R)) (d : T) :
    (combinerRun q d).1 = commitState q d := by
  induction q generalizing d with
  | nil => rfl
  | cons n rest ih =>
    have hcr : combinerRun (n :: rest) d =
        ((combinerRun rest (n.closure d).1).1,
          (n.id, (n.closure d).2) :: (combinerRun rest (n.closure d).1).2) := by
      simp only [combinerRun]
    rw [hcr]
    simpa [commitState] using ih (n.closure d).1

theorem combinerRun_ids {T R : Type} (q : List (NodeC T R)) (d : T) :
    (combinerRun q d).2.map Prod.fst = q.map NodeC.id := by
  induction q generalizing d with
  | nil => rfl
  | cons n rest ih =>
    have hcr : combinerRun (n :: rest) d =
        ((combinerRun rest (n.closure d).1).1,
          (n.id, (n.closure d).2) :: (combinerRun rest (n.closure d).1).2) := by
      simp only [combinerRun]
    rw [hcr]
    simp [ih]

theorem combinerRun_get {T R : Type} (q : List (NodeC T R)) (d : T) (i : Nat)
    (hi : i < q.length) (ho : i < (combinerRun q d).2.length) :
    (combinerRun q d).2.get ⟨i, ho⟩ =
      ((q.get ⟨i, hi⟩).id,
        ((q.get ⟨i, hi⟩).closure (commitState (q.take i) d)).2) := by
  induction q generalizing d i with
  | nil => exact absurd hi (by simp)
  | cons n rest ih =>
    have hcr : combinerRun (n :: rest) d =
        ((combinerRun rest (n.closure d).1).1,
          (n.id, (n.closure d).2) :: (combinerRun rest (n.closure d).1).2) := by
      simp only [combinerRun]
    cases i with
    | zero => simp [hcr, commitState]
    | succ j =>
      have hj : j < rest.length := by simpa using hi
      have ho' : j < (combinerRun rest (n.closure d).1).2.length := by
        rw [combinerRun_length]; exact hj
      have step := ih (n.closure d).1 j hj ho'
      have hget : (combinerRun (n :: rest) d).2.get ⟨j + 1, ho⟩ =
          (combinerRun rest (n.closure d).1).2.get ⟨j, ho'⟩ := by
        simp [hcr]
      rw [hget, step]
      simp [commitState]

theorem bombWalk_eq_map : ∀ l : List Nat,
    bombWalk l = l.map (fun n => (n, POISONED))
  | [] => rfl
  | [_] => rfl
  | a :: b :: rest => by
    have ih := bombWalk_eq_map (b :: rest)
    simp [bombWalk, ih]

/-! ### Claims about the lamlock combining lock -/

/-- C1: a `run` that returns `Ok(R)` yields the caller's function applied to
the datum left by all previously committed thunks (on the fast path, the
current datum), and the combiner of `Node::attach` executes the enqueued
thunks in the FIFO order in which their tail swaps linearized: the execution
trace lists the queue's node ids in order, waiter `i` receives its closure's
value at the state committed by the first `i` thunks, and the final datum is
the full commit. -/
theorem C1_run_fifo_commit :
    (∀ (T R : Type) (f : T → T × R) (d : T),
      lockRun f ⟨.Unlocked, d⟩ = some (.ok (f d).2, ⟨.Unlocked, (f d).1⟩))
    ∧ (∀ (T R : Type) (q : List (NodeC T R)) (d : T),
        (combinerRun q d).2.map Prod.fst = q.map NodeC.id)
    ∧ (∀ (T R : Type) (q : List (NodeC T R)) (d : T),
        (combinerRun q d).1 = commitState q d)
    ∧ (∀ (T R : Type) (q : List (NodeC T R)) (d : T) (i : Nat)
        (hi : i < q.length) (ho : i < (combinerRun q d).2.length),
        (combinerRun q d).2.get ⟨i, ho⟩ =
          ((q.get ⟨i, hi⟩).id,
            ((q.get ⟨i, hi⟩).closure (commitState (q.take i) d)).2)) := by
  refine ⟨?_, ?_, ?_, ?_⟩
  · intro T R f d
    rcases hfd : f d with ⟨d1, r⟩
    simp [lockRun, rawTryAcquire, hfd]
  · intro T R q d
    exact combinerRun_ids q d
  · intro T R q d
    exact combinerRun_fst q d
  · intro T R q d i hi ho
    exact combinerRun_get q d i hi ho

/-- C1 witness: a concrete two-node queue; the second waiter observes the
state committed by the first thunk. -/
theorem C1_run_fifo_commit_witness :
    (combinerRun [NodeC.mk 5 (fun d => (d + 1, d * 10)),
        NodeC.mk 7 (fun d => (d + 2, d * 100))] (0 : Nat)).2.get ⟨1, by decide⟩ =
      (7, 100) := by
  have h := C1_run_fifo_commit.2.2.2 Nat Nat
    [NodeC.mk 5 (fun d => (d + 1, d * 10)), NodeC.mk 7 (fun d => (d + 2, d * 100))]
    0 1 (by decide) (by decide)
  simpa using h

/-- C2: when a thunk panics, the heavy bomb's drop poisons the raw lock and
its chain reaction wakes every node still enqueued behind the panicking
position with the POISONED message (every waiter, the tail included, receives
a terminal wake: none stays parked), and any later `run` on the poisoned lock
returns the `LockPoisoned` error on both the fast and the solo slow path. -/
theorem C2_panic_poison_chain :
    (∀ chain : List Nat, (bombDrop chain).1 = .Poisoned)
    ∧ (∀ chain : List Nat,
        (bombDrop chain).2 = chain.map (fun n => (n, POISONED)))
    ∧ (∀ (chain : List Nat) (n : Nat), n ∈ chain →
        (n, POISONED) ∈ (bombDrop chain).2)
    ∧ (∀ (T R : Type) (f : T → T × R) (d : T),
        lockRun f ⟨.Poisoned, d⟩ = some (.error .mk, ⟨.Poisoned, d⟩)
        ∧ runSlowlySolo f ⟨.Poisoned, d⟩ = some (.error .mk, ⟨.Poisoned, d⟩)) := by
  refine ⟨fun _ => rfl, ?_, ?_, ?_⟩
  · intro chain
    simpa [bombDrop] using bombWalk_eq_map chain
  · intro chain n hn
    have h := bombWalk_eq_map chain
    simp [bombDrop, h]
    exact hn
  · intro T R f d
    exact ⟨rfl, rfl⟩

/-- C2 witness: a three-node chain; the middle node is woken POISONED. -/
theorem C2_panic_poison_chain_witness :
    (9, POISONED) ∈ (bombDrop [3, 9, 12]).2 :=
  C2_panic_poison_chain.2.2.1 [3, 9, 12] 9 (by decide)

/-- C3: a successful `poison()` leaves the status word POISONED; in that
state every `run` returns the `LockPoisoned` error (fast path and solo slow
path) and leaves the lock poisoned, `inspect_poison` with a `Continue`
closure keeps it poisoned, and only a `Break` inspection or `unpoison`
returns the lock to UNLOCKED. -/
theorem C3_poison_persists :
    (∀ (T : Type) (s s' : LockSt T),
        lockPoison s = some (.ok (), s') → s'.status = .Poisoned)
    ∧ (∀ (T R : Type) (f : T → T × R) (d : T),
        lockRun f ⟨.Poisoned, d⟩ = some (.error .mk, ⟨.Poisoned, d⟩))
    ∧ (∀ (T R : Type) (f : T → T × R) (d : T),
        runSlowlySolo f ⟨.Poisoned, d⟩ = some (.error .mk, ⟨.Poisoned, d⟩))
    ∧ (∀ (T R : Type) (g : T → T × CFlow R) (d d' : T) (r : R),
        g d = (d', .Continue r) →
        lockInspectPoison g ⟨.Poisoned, d⟩ = (.ok r, ⟨.Poisoned, d'⟩))
    ∧ (∀ (T R : Type) (g : T → T × CFlow R) (d d' : T) (r : R),
        g d = (d', .Break r) →
        lockInspectPoison g ⟨.Poisoned, d⟩ = (.ok r, ⟨.Unlocked, d'⟩))
    ∧ (∀ (T : Type) (d : T),
        lockUnpoison ⟨.Poisoned, d⟩ = (.ok (), ⟨.Unlocked, d⟩)) := by
  refine ⟨?_, fun _ _ _ _ => rfl, fun _ _ _ _ => rfl, ?_, ?_, fun _ _ => rfl⟩
  · intro T s s' h
    cases hs : s.status with
    | Unlocked =>
      simp [lockPoison, rawAcquire, hs] at h
      cases h
      rfl
    | Locked => simp [lockPoison, rawAcquire, hs] at h
    | Poisoned => simp [lockPoison, rawAcquire, hs] at h
  · intro T R g d d' r hg
    simp [lockInspectPoison, rawAcquirePoison, hg]
  · intro T R g d d' r hg
    simp [lockInspectPoison, rawAcquirePoison, hg]

/-- C3 witness: poisoning a fresh lock over `Nat` succeeds and the run after
it fails with `LockPoisoned`. -/
theorem C3_poison_persists_witness :
    (LockSt.mk LockStatus.Poisoned (0 : Nat)).status = .Poisoned ∧
    lockRun (fun d => (d + 1, d)) (LockSt.mk LockStatus.Poisoned (0 : Nat)) =
      some (.error .mk, ⟨.Poisoned, 0⟩) := by
  constructor
  · exact C3_poison_persists.1 Nat ⟨.Unlocked, 0⟩ ⟨.Poisoned, 0⟩ (by rfl)
  · exact C3_poison_persists.2.1 Nat Nat (fun d => (d + 1, d)) 0

/-- C4: `inspect_poison(g)` fails with `LockNotPoisoned` (leaving the state
unchanged) whenever the lock is not poisoned; when it is poisoned it runs `g`
on the datum, and a `Continue(r)` result leaves the lock POISONED returning
`Ok(r)` while a `Break(r)` result moves it to UNLOCKED returning `Ok(r)`. -/
theorem C4_inspect_poison_behavior :
    ∀ (T R : Type) (g : T → T × CFlow R) (s : LockSt T),
      (s.status ≠ .Poisoned → lockInspectPoison g s = (.error .mk, s))
      ∧ (∀ (d' : T) (r : R), s.status = .Poisoned →
          g s.data = (d', .Continue r) →
          lockInspectPoison g s = (.ok r, ⟨.Poisoned, d'⟩))
      ∧ (∀ (d' : T) (r : R), s.status = .Poisoned →
          g s.data = (d', .Break r) →
          lockInspectPoison g s = (.ok r, ⟨.Unlocked, d'⟩)) := by
  intro T R g s
  refine ⟨?_, ?_, ?_⟩
  · intro hs
    cases h : s.status with
    | Unlocked => simp [lockInspectPoison, rawAcquirePoison, h]
    | Locked => simp [lockInspectPoison, rawAcquirePoison, h]
    | Poisoned => exact absurd h hs
  · intro d' r hs hg
    simp [lockInspectPoison, rawAcquirePoison, hs, hg]
  · intro d' r hs hg
    simp [lockInspectPoison, rawAcquirePoison, hs, hg]

/-- C4 witness: on an unlocked lock the inspection fails with
`LockNotPoisoned`; on a poisoned lock a Break closure releases it. -/
theorem C4_inspect_poison_behavior_witness :
    lockInspectPoison (fun d => (d + 1, CFlow.Break d)) (LockSt.mk .Unlocked (3 : Nat)) =
      (.error .mk, ⟨.Unlocked, 3⟩) ∧
    lockInspectPoison (fun d => (d + 1, CFlow.Break d)) (LockSt.mk .Poisoned (3 : Nat)) =
      (.ok 3, ⟨.Unlocked, 4⟩) := by
  constructor
  · exact (C4_inspect_poison_behavior Nat Nat (fun d => (d + 1, CFlow.Break d))
      ⟨.Unlocked, 3⟩).1 (by decide)
  · exact (C4_inspect_poison_behavior Nat Nat (fun d => (d + 1, CFlow.Break d))
      ⟨.Poisoned, 3⟩).2.2 4 3 rfl rfl

/-- C8: `unpoison()` is observationally the same operation as
`inspect_poison` with a closure that always breaks with the unit value: on
every lock status and datum it produces the identical result and the
identical final lock state (UNLOCKED with datum intact when poisoned, the
`LockNotPoisoned` error and no change otherwise). -/
theorem C8_unpoison_equiv_inspect :
    ∀ (T : Type) (s : LockSt T),
      lockUnpoison s = lockInspectPoison (fun d => (d, .Break ())) s
      ∧ (s.status = .Poisoned →
          lockUnpoison s = (.ok (), ⟨.Unlocked, s.data⟩))
      ∧ (s.status ≠ .Poisoned → lockUnpoison s = (.error .mk, s)) := by
  intro T s
  refine ⟨rfl, ?_, ?_⟩
  · intro hs
    obtain ⟨st, d⟩ := s
    cases hs
    rfl
  · intro hs
    obtain ⟨st, d⟩ := s
    cases st with
    | Unlocked => rfl
    | Locked => rfl
    | Poisoned => exact absurd rfl hs

/-- C8 witness: the equivalence evaluated on a poisoned and an unlocked
lock over `Nat`. -/
theorem C8_unpoison_equiv_inspect_witness :
    lockUnpoison (LockSt.mk .Poisoned (5 : Nat)) = (.ok (), ⟨.Unlocked, 5⟩) ∧
    lockUnpoison (LockSt.mk .Unlocked (5 : Nat)) = (.error .mk, ⟨.Unlocked, 5⟩) := by
  constructor
  · exact (C8_unpoison_equiv_inspect Nat ⟨.Poisoned, 5⟩).2.1 rfl
  · exact (C8_unpoison_equiv_inspect Nat ⟨.Unlocked, 5⟩).2.2 (by decide)

/-- C9: neither `poison()` nor `unpoison()` writes through the datum: any
`poison` outcome and any `unpoison` outcome leave the protected value
exactly as it was. -/
theorem C9_poison_unpoison_frame :
    (∀ (T : Type) (s s' : LockSt T) (r : Except LockPoisoned Unit),
        lockPoison s = some (r, s') → s'.data = s.data)
    ∧ (∀ (T : Type) (s : LockSt T), (lockUnpoison s).2.data = s.data) := by
  constructor
  · intro T s s' r h
    cases hs : s.status with
    | Unlocked =>
      simp [lockPoison, rawAcquire, hs] at h
      rw [← h.2]
    | Locked => simp [lockPoison, rawAcquire, hs] at h
    | Poisoned =>
      simp [lockPoison, rawAcquire, hs] at h
      rw [← h.2]
  · intro T s
    obtain ⟨st, d⟩ := s
    cases st <;> rfl

/-- C9 witness: poisoning an unlocked lock and unpoisoning a poisoned lock
both preserve the datum 7. -/
theorem C9_poison_unpoison_frame_witness :
    (LockSt.mk LockStatus.Poisoned (7 : Nat)).data = 7 ∧
    (lockUnpoison (LockSt.mk LockStatus.Poisoned (7 : Nat))).2.data = 7 := by
  constructor
  · exact C9_poison_unpoison_frame.1 Nat ⟨.Unlocked, 7⟩ ⟨.Poisoned, 7⟩ (.ok ()) rfl
  · exact C9_poison_unpoison_frame.2 Nat ⟨.Poisoned, 7⟩

/-! ### Claims about `Config::new` arithmetic and `LocalState::fill` -/

/-- C5 counterexample: with one CPU and a 4096-byte opaque state on
4096-byte pages the product is already a multiple of the page size; the
code's rounding produces 8192 where the claim's "least multiple greater
than or equal" demands the product 4096 unchanged. -/
theorem C5_rounding_counterexample :
    alignedBytes (guessedBytes 1 4096) 4096 = 8192 ∧
    claimRoundUpToPage (guessedBytes 1 4096) 4096 = 4096 ∧
    alignedBytes (guessedBytes 1 4096) 4096 ≠
      claimRoundUpToPage (guessedBytes 1 4096) 4096 :=
  ⟨by decide, by decide, by decide⟩

/-- C5 (amended): Config construction computes
`states_per_page = page_size / size_of_opaque_states` and
`pages_per_block = initial_bytes / page_size`, where `initial_bytes` is
`guess_cpu_count() * size_of_opaque_states` rounded up to the next page
boundary strictly above the product: a multiple of `page_size` with
`product < initial_bytes <= product + page_size` (so a product already
equal to a multiple of `page_size` gains one extra full page). -/
theorem C5_config_arithmetic (cpus sizeOfStates pageSize : Nat)
    (hp : 0 < pageSize) :
    statesPerPageOf pageSize sizeOfStates = pageSize / sizeOfStates
    ∧ pagesPerBlockOf (guessedBytes cpus sizeOfStates) pageSize
        = alignedBytes (guessedBytes cpus sizeOfStates) pageSize / pageSize
    ∧ alignedBytes (guessedBytes cpus sizeOfStates) pageSize % pageSize = 0
    ∧ guessedBytes cpus sizeOfStates
        < alignedBytes (guessedBytes cpus sizeOfStates) pageSize
    ∧ alignedBytes (guessedBytes cpus sizeOfStates) pageSize
        ≤ guessedBytes cpus sizeOfStates + pageSize := by
  have h1 := Nat.div_add_mod (guessedBytes cpus sizeOfStates) pageSize
  have h2 : guessedBytes cpus sizeOfStates % pageSize < pageSize :=
    Nat.mod_lt _ hp
  have key : alignedBytes (guessedBytes cpus sizeOfStates) pageSize =
      pageSize * (guessedBytes cpus sizeOfStates / pageSize + 1) := by
    simp only [alignedBytes]
    rw [Nat.mul_add, Nat.mul_one]
    omega
  refine ⟨rfl, rfl, ?_, ?_, ?_⟩
  · rw [key]
    exact Nat.mul_mod_right pageSize _
  · simp only [alignedBytes]
    omega
  · simp only [alignedBytes]
    omega

/-- C5 witness: the amended bounds evaluated at 3 CPUs, 100-byte states and
4096-byte pages. -/
theorem C5_config_arithmetic_witness :
    statesPerPageOf 4096 100 = 4096 / 100
    ∧ pagesPerBlockOf (guessedBytes 3 100) 4096
        = alignedBytes (guessedBytes 3 100) 4096 / 4096
    ∧ alignedBytes (guessedBytes 3 100) 4096 % 4096 = 0
    ∧ guessedBytes 3 100 < alignedBytes (guessedBytes 3 100) 4096
    ∧ alignedBytes (guessedBytes 3 100) 4096 ≤ guessedBytes 3 100 + 4096 :=
  C5_config_arithmetic 3 100 4096 (by decide)

/-- Auxiliary: the loop outcome of `fill` is success exactly when the bytes
remaining at exit reached zero. -/
theorem fillModel_ok_iff : ∀ (rs : List Int) (n : Nat)
    (res : Except RngError Unit) (rem : Nat) (l : List Int),
    fillModel rs n = some (res, rem, l) → (res = .ok () ↔ rem = 0)
  | rs, 0, res, rem, l => by
    intro h
    simp [fillModel] at h
    simp [h.1, h.2.1]
  | [], n + 1, res, rem, l => by
    intro h
    simp [fillModel] at h
  | r :: rest, n + 1, res, rem, l => by
    intro h
    simp only [fillModel] at h
    by_cases hr : r < 0
    · rw [tryFillModel, if_pos hr] at h
      have hm : (if -r = EAGAIN ∨ -r = EINTR then fillModel rest (n + 1)
          else some (Except.error (RngError.Errno (-r)), n + 1, rest)) =
            some (res, rem, l) := h
      by_cases hre : -r = EAGAIN ∨ -r = EINTR
      · rw [if_pos hre] at hm
        exact fillModel_ok_iff rest (n + 1) res rem l hm
      · rw [if_neg hre] at hm
        simp at hm
        obtain ⟨h1, h2, _⟩ := hm
        simp [← h1, ← h2]
    · rw [tryFillModel, if_neg hr] at h
      have hm : (if r.toNat ≤ n + 1 then fillModel rest (n + 1 - r.toNat)
          else none) = some (res, rem, l) := h
      by_cases hle : r.toNat ≤ n + 1
      · rw [if_pos hle] at hm
        exact fillModel_ok_iff rest (n + 1 - r.toNat) res rem l hm
      · rw [if_neg hle] at hm
        simp at hm

/-- C7: `fill` loops `try_fill` over the remaining byte count: a successful
call returning `filled` advances the buffer by `filled`; an
`Errno(EAGAIN)` or `Errno(EINTR)` failure is retried with the buffer
unchanged; any other error is returned unchanged with the buffer not yet
complete; and the loop answers `Ok(())` exactly when the whole buffer has
been filled (the remaining count at exit is zero). -/
theorem C7_fill_loop :
    (∀ (r : Int) (rest : List Int) (n : Nat), 0 < n → 0 ≤ r → r.toNat ≤ n →
        fillModel (r :: rest) n = fillModel rest (n - r.toNat))
    ∧ (∀ (r : Int) (rest : List Int) (n : Nat), 0 < n → r < 0 →
        (-r = EAGAIN ∨ -r = EINTR) →
        fillModel (r :: rest) n = fillModel rest n)
    ∧ (∀ (r : Int) (rest : List Int) (n : Nat), 0 < n → r < 0 →
        -r ≠ EAGAIN → -r ≠ EINTR →
        fillModel (r :: rest) n = some (.error (.Errno (-r)), n, rest))
    ∧ (∀ (rs l : List Int) (n rem : Nat) (res : Except RngError Unit),
        fillModel rs n = some (res, rem, l) → (res = .ok () ↔ rem = 0)) := by
  refine ⟨?_, ?_, ?_, ?_⟩
  · intro r rest n hn hr0 hle
    obtain ⟨m, rfl⟩ := Nat.exists_eq_add_of_lt hn
    simp only [Nat.zero_add] at hle ⊢
    simp only [fillModel, tryFillModel, if_neg (Int.not_lt.mpr hr0), if_pos hle]
  · intro r rest n hn hr hre
    obtain ⟨m, rfl⟩ := Nat.exists_eq_add_of_lt hn
    simp only [Nat.zero_add]
    simp only [fillModel, tryFillModel, if_pos hr, if_pos hre]
  · intro r rest n hn hr h1 h2
    obtain ⟨m, rfl⟩ := Nat.exists_eq_add_of_lt hn
    simp only [Nat.zero_add]
    have hre : ¬(-r = EAGAIN ∨ -r = EINTR) := by
      intro h
      rcases h with h | h
      · exact h1 h
      · exact h2 h
    simp only [fillModel, tryFillModel, if_pos hr, if_neg hre]
  · intro rs l n rem res h
    exact fillModel_ok_iff rs n res rem l h

/-- C7 witness: a successful call advances by 3 bytes, EAGAIN and a hard
error behave as claimed, and a completed loop is precisely `Ok`. -/
theorem C7_fill_loop_witness :
    fillModel [(3 : Int)] 5 = fillModel [] 2
    ∧ fillModel [(-11 : Int)] 5 = fillModel [] 5
    ∧ fillModel [(-13 : Int)] 5 = some (.error (.Errno 13), 5, [])
    ∧ ((Except.ok () : Except RngError Unit) = .ok () ↔ (0 : Nat) = 0) := by
  refine ⟨?_, ?_, ?_, ?_⟩
  · exact C7_fill_loop.1 3 [] 5 (by decide) (by decide) (by decide)
  · exact C7_fill_loop.2.1 (-11) [] 5 (by decide) (by decide) (Or.inl (by decide))
  · exact C7_fill_loop.2.2.1 (-13) [] 5 (by decide) (by decide) (by decide) (by decide)
  · exact C7_fill_loop.2.2.2 [(4 : Int)] [] 4 0 (.ok ()) (by rfl)

/-- C10: `fill` on an empty buffer exits the loop before any `try_fill`
call: it returns `Ok(())` with the whole oracle of vDSO results left
unconsumed, whatever the flag or pending results are. -/
theorem C10_fill_empty_buffer (rs : List Int) :
    fillModel rs 0 = some (.ok (), 0, rs) := by
  cases rs <;> rfl

/-! ### Pool lemmas: geometry of one block -/

theorem PoolConfig.WF.spp_size_le {cfg : PoolConfig} (h : cfg.WF) :
    cfg.statesPerPage * cfg.sizeOfStates ≤ cfg.pageSize := by
  rw [h.spp_eq]
  exact Nat.div_mul_le_self cfg.pageSize cfg.sizeOfStates

theorem PoolConfig.WF.page_pos {cfg : PoolConfig} (h : cfg.WF) :
    0 < cfg.pageSize :=
  Nat.lt_of_lt_of_le (Nat.mul_pos h.spp_pos h.size_pos) h.spp_size_le

theorem PoolConfig.WF.spb_pos {cfg : PoolConfig} (h : cfg.WF) :
    0 < cfg.statesPerBlock :=
  Nat.mul_pos h.ppb_pos h.spp_pos

theorem PoolConfig.WF.blockBytes_pos {cfg : PoolConfig} (h : cfg.WF) :
    0 < cfg.blockBytes :=
  Nat.mul_pos h.page_pos h.ppb_pos

theorem blockStates_length (cfg : PoolConfig) (base : Nat) :
    (blockStates cfg base).length = cfg.statesPerBlock := by
  simp [blockStates]

theorem mem_blockStates {cfg : PoolConfig} {base p : Nat} :
    p ∈ blockStates cfg base ↔ ∃ j < cfg.statesPerBlock,
      p = base + j / cfg.statesPerPage * cfg.pageSize
        + j % cfg.statesPerPage * cfg.sizeOfStates := by
  simp [blockStates, eq_comm]

theorem blockStates_lb {cfg : PoolConfig} {base p : Nat}
    (h : p ∈ blockStates cfg base) : base ≤ p := by
  rw [mem_blockStates] at h
  obtain ⟨j, _, rfl⟩ := h
  omega

theorem slot_lt_page {cfg : PoolConfig} (hwf : cfg.WF) {st : Nat}
    (h : st < cfg.statesPerPage) :
    st * cfg.sizeOfStates < cfg.pageSize := by
  have h1 : st * cfg.sizeOfStates + cfg.sizeOfStates ≤
      cfg.statesPerPage * cfg.sizeOfStates := by
    have : st + 1 ≤ cfg.statesPerPage := h
    calc st * cfg.sizeOfStates + cfg.sizeOfStates
        = (st + 1) * cfg.sizeOfStates := by ring
      _ ≤ cfg.statesPerPage * cfg.sizeOfStates :=
        Nat.mul_le_mul_right _ this
  have := hwf.spp_size_le
  have := hwf.size_pos
  omega

theorem blockStates_ub {cfg : PoolConfig} (hwf : cfg.WF) {base p : Nat}
    (h : p ∈ blockStates cfg base) : p < base + cfg.blockBytes := by
  rw [mem_blockStates] at h
  obtain ⟨j, hj, rfl⟩ := h
  have hpg : j / cfg.statesPerPage < cfg.pagesPerBlock := by
    rw [Nat.div_lt_iff_lt_mul hwf.spp_pos]
    exact hj
  have hst : j % cfg.statesPerPage < cfg.statesPerPage :=
    Nat.mod_lt _ hwf.spp_pos
  have h1 := slot_lt_page hwf hst
  have h2 : j / cfg.statesPerPage * cfg.pageSize
      + j % cfg.statesPerPage * cfg.sizeOfStates
      < (j / cfg.statesPerPage + 1) * cfg.pageSize := by
    rw [Nat.add_mul, Nat.one_mul]
    omega
  have h3 : (j / cfg.statesPerPage + 1) * cfg.pageSize ≤
      cfg.pagesPerBlock * cfg.pageSize :=
    Nat.mul_le_mul_right _ hpg
  have h4 : cfg.pagesPerBlock * cfg.pageSize = cfg.blockBytes := by
    simp [PoolConfig.blockBytes, Nat.mul_comm]
  omega

theorem pageSlot_inj {page q1 q2 b1 b2 : Nat} (hb1 : b1 < page)
    (hb2 : b2 < page) (h : q1 * page + b1 = q2 * page + b2) :
    q1 = q2 ∧ b1 = b2 := by
  have hq : q1 = q2 := by
    rcases Nat.lt_trichotomy q1 q2 with hlt | heqd | hgt
    · exfalso
      have h5 : (q1 + 1) * page ≤ q2 * page := Nat.mul_le_mul_right _ hlt
      rw [Nat.add_mul, Nat.one_mul] at h5
      have h6 : q1 * page + b1 < q2 * page + b2 :=
        Nat.lt_of_lt_of_le (Nat.add_lt_add_left hb1 _)
          (Nat.le_trans h5 (Nat.le_add_right _ _))
      exact Nat.ne_of_lt h6 h
    · exact heqd
    · exfalso
      have h5 : (q2 + 1) * page ≤ q1 * page := Nat.mul_le_mul_right _ hgt
      rw [Nat.add_mul, Nat.one_mul] at h5
      have h6 : q2 * page + b2 < q1 * page + b1 :=
        Nat.lt_of_lt_of_le (Nat.add_lt_add_left hb2 _)
          (Nat.le_trans h5 (Nat.le_add_right _ _))
      exact Nat.ne_of_lt h6 h.symm
  subst hq
  exact ⟨rfl, Nat.add_left_cancel h⟩

theorem blockStates_nodup {cfg : PoolConfig} (hwf : cfg.WF) (base : Nat) :
    (blockStates cfg base).Nodup := by
  apply List.Nodup.map_on _ (List.nodup_range _)
  intro j1 h1 j2 h2 heq
  have heqB : base + j1 / cfg.statesPerPage * cfg.pageSize
      + j1 % cfg.statesPerPage * cfg.sizeOfStates
      = base + j2 / cfg.statesPerPage * cfg.pageSize
      + j2 % cfg.statesPerPage * cfg.sizeOfStates := heq
  have hst1 : j1 % cfg.statesPerPage < cfg.statesPerPage :=
    Nat.mod_lt _ hwf.spp_pos
  have hst2 : j2 % cfg.statesPerPage < cfg.statesPerPage :=
    Nat.mod_lt _ hwf.spp_pos
  have hb1 := slot_lt_page hwf hst1
  have hb2 := slot_lt_page hwf hst2
  have heqC : j1 / cfg.statesPerPage * cfg.pageSize
      + j1 % cfg.statesPerPage * cfg.sizeOfStates
      = j2 / cfg.statesPerPage * cfg.pageSize
      + j2 % cfg.statesPerPage * cfg.sizeOfStates := by
    rw [Nat.add_assoc, Nat.add_assoc] at heqB
    exact Nat.add_left_cancel heqB
  obtain ⟨hq, hb⟩ := pageSlot_inj hb1 hb2 heqC
  have hmod : j1 % cfg.statesPerPage = j2 % cfg.statesPerPage :=
    Nat.eq_of_mul_eq_mul_right hwf.size_pos hb
  have e1 := Nat.div_add_mod j1 cfg.statesPerPage
  have e2 := Nat.div_add_mod j2 cfg.statesPerPage
  rw [hq, hmod] at e1
  exact e1.symm.trans e2

/-! ### Pool lemmas: base chains, free slots and list surgery -/

theorem basesChain_lt {cfg : PoolConfig} (hB : 0 < cfg.blockBytes) :
    ∀ (bases : List Nat) (n : Nat), basesChain cfg bases n →
      ∀ b ∈ bases, b < n
  | [], _, _, b, hb => absurd hb (by simp)
  | a :: rest, n, hchain, b, hb => by
    obtain ⟨ha, hrest⟩ := hchain
    rcases List.mem_cons.mp hb with rfl | hb'
    · omega
    · have := basesChain_lt hB rest a hrest b hb'
      omega

theorem basesChain_nodup {cfg : PoolConfig} (hB : 0 < cfg.blockBytes) :
    ∀ (bases : List Nat) (n : Nat), basesChain cfg bases n → bases.Nodup
  | [], _, _ => List.nodup_nil
  | a :: rest, n, hchain => by
    obtain ⟨ha, hrest⟩ := hchain
    refine List.nodup_cons.mpr ⟨?_, basesChain_nodup hB rest a hrest⟩
    intro hmem
    have := basesChain_lt hB rest a hrest a hmem
    omega

theorem freeSlots_nil (c fc : Nat) : freeSlots [] c fc = [] := by
  cases c <;> rfl

theorem freeSlots_zero_zero (blocks : List Block) :
    freeSlots blocks 0 0 = [] := by
  cases blocks <;> simp [freeSlots]

theorem freeSlots_split : ∀ (blocks : List Block) (c : Nat) (blk : Block)
    (fc : Nat), blocks[c]? = some blk →
    freeSlots blocks c fc = freeSlots blocks c 0 ++ blk.slots.take fc
  | [], c, blk, fc, h => by simp at h
  | b :: rest, 0, blk, fc, h => by
    simp at h
    subst h
    simp [freeSlots]
  | b :: rest, c + 1, blk, fc, h => by
    simp at h
    have ih := freeSlots_split rest c blk fc h
    simp [freeSlots, ih]

theorem freeSlots_advance : ∀ (blocks : List Block) (c : Nat) (blk : Block),
    blocks[c]? = some blk →
    freeSlots blocks (c + 1) 0 = freeSlots blocks c blk.slots.length
  | [], c, blk, h => by simp at h
  | b :: rest, 0, blk, h => by
    simp at h
    subst h
    simp [freeSlots, freeSlots_zero_zero]
  | b :: rest, c + 1, blk, h => by
    simp at h
    have ih := freeSlots_advance rest c blk h
    simp [freeSlots, ih]

theorem freeSlots_set_cursor : ∀ (blocks : List Block) (c : Nat)
    (b' : Block) (fc : Nat), c < blocks.length →
    freeSlots (blocks.set c b') c fc = freeSlots blocks c 0 ++ b'.slots.take fc
  | [], c, b', fc, h => by simp at h
  | b :: rest, 0, b', fc, h => by simp [freeSlots]
  | b :: rest, c + 1, b', fc, h => by
    have ih := freeSlots_set_cursor rest c b' fc (by simpa using h)
    simp [freeSlots, ih]

theorem take_of_getElem : ∀ (l : List Nat) (k : Nat) (p : Nat),
    l[k]? = some p → l.take (k + 1) = l.take k ++ [p] := by
  intro l k p h
  rw [List.take_succ, h]
  rfl

theorem take_set_same : ∀ (l : List Nat) (k : Nat) (p : Nat),
    (l.set k p).take k = l.take k
  | [], _, _ => by simp
  | a :: rest, 0, p => by simp
  | a :: rest, k + 1, p => by
    simp [List.set, take_set_same rest k p]

theorem take_set_succ : ∀ (l : List Nat) (k : Nat) (p : Nat),
    k < l.length → (l.set k p).take (k + 1) = l.take k ++ [p] := by
  intro l k p hk
  have h1 : (l.set k p)[k]? = some p := by
    rw [List.getElem?_set_self']
    rw [List.getElem?_eq_getElem hk]
    rfl
  rw [take_of_getElem _ _ _ h1, take_set_same]

theorem map_base_set : ∀ (blocks : List Block) (c : Nat) (blk b' : Block),
    blocks[c]? = some blk → b'.base = blk.base →
    (blocks.set c b').map Block.base = blocks.map Block.base
  | [], c, blk, b', h, _ => by simp at h
  | b :: rest, 0, blk, b', h, hbase => by
    simp at h
    subst h
    simp [hbase]
  | b :: rest, c + 1, blk, b', h, hbase => by
    simp at h
    have ih := map_base_set rest c blk b' h hbase
    simp [ih]

theorem length_set_same (blocks : List Block) (c : Nat) (b' : Block) :
    (blocks.set c b').length = blocks.length := by
  simp

/-! ### Pool invariant: establishment and preservation -/

theorem PoolInv_init (cfg : PoolConfig) : PoolInv cfg initPool 0 := by
  refine ⟨?_, ?_, ?_, ?_, ?_, ?_, ?_, ?_⟩
  · intro b hb
    simp [initPool] at hb
  · exact trivial
  · intro c hc
    simp [initPool] at hc
  · intro c hc
    simp [initPool] at hc
  · intro c hc
    simp [initPool] at hc
  · rfl
  · exact List.nodup_nil
  · intro p hp
    simp [initPool, allStates] at hp

theorem PoolInv_allocate {cfg : PoolConfig} (hwf : cfg.WF) {s : PoolSt}
    {out : Multiset Nat} (hinv : PoolInv cfg s out) (hc : s.cursor = none) :
    PoolInv cfg (Pool.allocate cfg s) out := by
  obtain ⟨slotsLen, bases, cursorLt, fcPos, fcLe, perm, nodupAll, bounded⟩ := hinv
  have hfree : freeList s = [] := by
    simp [freeList, hc]
  have hout : out = (allStates cfg s : Multiset Nat) := by
    rw [hfree] at perm
    simpa using perm
  have hAllEq : allStates cfg (Pool.allocate cfg s) =
      blockStates cfg s.nextBase ++ allStates cfg s := by
    simp [allStates, Pool.allocate]
  refine ⟨?_, ?_, ?_, ?_, ?_, ?_, ?_, ?_⟩
  · intro b hb
    rcases List.mem_cons.mp hb with rfl | hb'
    · exact blockStates_length cfg s.nextBase
    · exact slotsLen b hb'
  · exact ⟨rfl, bases⟩
  · intro c hcc
    simp [Pool.allocate] at hcc
    simp [Pool.allocate, ← hcc]
  · intro c hcc
    exact hwf.spb_pos
  · intro c hcc
    exact Nat.le_refl _
  · have hfl : freeList (Pool.allocate cfg s) = blockStates cfg s.nextBase := by
      simp only [freeList, Pool.allocate, freeSlots]
      rw [← blockStates_length cfg s.nextBase]
      exact List.take_length _
    rw [hfl, hAllEq]
    have : (↑(blockStates cfg s.nextBase ++ allStates cfg s) : Multiset Nat) =
        ↑(blockStates cfg s.nextBase) + ↑(allStates cfg s) := rfl
    rw [this, ← hout]
  · rw [hAllEq, List.nodup_append]
    refine ⟨blockStates_nodup hwf _, nodupAll, ?_⟩
    intro a ha hmem
    have h1 := blockStates_lb ha
    have h2 := bounded a hmem
    omega
  · intro p hp
    rw [hAllEq] at hp
    rcases List.mem_append.mp hp with h | h
    · have := blockStates_ub hwf h
      simp [Pool.allocate]
      omega
    · have := bounded p h
      have hB := hwf.blockBytes_pos
      simp [Pool.allocate]
      omega

theorem coe_append_snoc (l1 l2 : List Nat) (a : Nat) (m : Multiset Nat) :
    (↑(l1 ++ (l2 ++ [a])) : Multiset Nat) + m = ↑(l1 ++ l2) + (a ::ₘ m) := by
  simp [← Multiset.coe_add]
  rw [← Multiset.singleton_add]
  ac_rfl

theorem PoolInv_pop {cfg : PoolConfig} (hwf : cfg.WF) {s1 s' : PoolSt}
    {out : Multiset Nat} {p : Nat} (hinv : PoolInv cfg s1 out)
    (h : Pool.pop cfg s1 = some (p, s')) : PoolInv cfg s' (p ::ₘ out) := by
  obtain ⟨slotsLen, bases, cursorLt, fcPos, fcLe, perm, nodupAll, bounded⟩ := hinv
  rw [Pool.pop] at h
  rcases hcur : s1.cursor with _ | c
  · rw [hcur] at h
    dsimp only at h
    cases h
  rw [hcur] at h
  dsimp only at h
  rcases hblk : s1.blocks[c]? with _ | blk
  · rw [hblk] at h
    dsimp only at h
    cases h
  rw [hblk] at h
  dsimp only at h
  have hclt : c < s1.blocks.length := cursorLt c hcur
  have hblkmem : blk ∈ s1.blocks := List.getElem?_mem hblk
  have hblen : blk.slots.length = cfg.statesPerBlock := slotsLen blk hblkmem
  rcases hfc : s1.freeCount with _ | k
  · rw [hfc] at h
    dsimp only at h
    cases h
  rw [hfc] at h
  dsimp only at h
  rcases hslot : blk.slots[k]? with _ | q
  · rw [hslot] at h
    dsimp only at h
    cases h
  rw [hslot] at h
  dsimp only at h
  have hkfc : k + 1 ≤ cfg.statesPerBlock := hfc ▸ fcLe c hcur
  have hfl1 : freeList s1 = freeSlots s1.blocks c 0 ++ (blk.slots.take k ++ [q]) := by
    rw [freeList, hcur]
    dsimp only
    rw [hfc, freeSlots_split s1.blocks c blk (k + 1) hblk,
      take_of_getElem blk.slots k q hslot]
  have hpermM : (↑(freeSlots s1.blocks c 0 ++ blk.slots.take k) : Multiset Nat)
      + (q ::ₘ out) = ↑(allStates cfg s1) := by
    rw [← perm, hfl1, coe_append_snoc]
  by_cases hk : k = 0
  · subst hk
    rw [if_pos rfl] at h
    simp only [Option.some.injEq, Prod.mk.injEq] at h
    obtain ⟨h1, h2⟩ := h
    subst h2
    rw [← h1]
    refine ⟨slotsLen, bases, ?_, ?_, ?_, ?_, nodupAll, bounded⟩
    · intro c' hc'
      dsimp only at hc' ⊢
      simp only [cursorPrev] at hc'
      split at hc'
      · cases hc'
      · cases hc'
        omega
    · intro c' hc'
      exact hwf.spb_pos
    · intro c' hc'
      exact Nat.le_refl _
    · cases c with
      | zero =>
        have hflr : freeList ⟨s1.blocks, cursorPrev 0, cfg.statesPerBlock, s1.nextBase⟩ = [] := rfl
        rw [hflr]
        have hall : allStates cfg ⟨s1.blocks, cursorPrev 0, cfg.statesPerBlock, s1.nextBase⟩ = allStates cfg s1 := rfl
        rw [hall]
        simpa [freeSlots_zero_zero] using hpermM
      | succ j =>
        have hjlt : j < s1.blocks.length := Nat.lt_of_succ_lt hclt
        rcases hbj : s1.blocks[j]? with _ | blkj
        · rw [List.getElem?_eq_none_iff] at hbj
          omega
        have hbjlen : blkj.slots.length = cfg.statesPerBlock :=
          slotsLen blkj (List.getElem?_mem hbj)
        have hadv := freeSlots_advance s1.blocks j blkj hbj
        rw [hbjlen] at hadv
        have hflr : freeList ⟨s1.blocks, cursorPrev (j + 1), cfg.statesPerBlock, s1.nextBase⟩ = freeSlots s1.blocks j cfg.statesPerBlock := rfl
        rw [hflr, ← hadv]
        have hall : allStates cfg ⟨s1.blocks, cursorPrev (j + 1), cfg.statesPerBlock, s1.nextBase⟩ = allStates cfg s1 := rfl
        rw [hall]
        simpa using hpermM
  · rw [if_neg hk] at h
    simp only [Option.some.injEq, Prod.mk.injEq] at h
    obtain ⟨h1, h2⟩ := h
    subst h2
    rw [← h1]
    refine ⟨slotsLen, bases, ?_, ?_, ?_, ?_, nodupAll, bounded⟩
    · intro c' hc'
      dsimp only at hc' ⊢
      cases hc'
      exact hclt
    · intro c' hc'
      dsimp only at hc' ⊢
      omega
    · intro c' hc'
      dsimp only at hc' ⊢
      omega
    · have hflr : freeList ⟨s1.blocks, some c, k, s1.nextBase⟩ =
          freeSlots s1.blocks c 0 ++ blk.slots.take k := by
        rw [freeList]
        dsimp only
        exact freeSlots_split s1.blocks c blk k hblk
      rw [hflr]
      have hall : allStates cfg ⟨s1.blocks, some c, k, s1.nextBase⟩ = allStates cfg s1 := rfl
      rw [hall]
      exact hpermM

theorem PoolInv_get {cfg : PoolConfig} (hwf : cfg.WF) {s s' : PoolSt}
    {out : Multiset Nat} {p : Nat} (hinv : PoolInv cfg s out)
    (h : Pool.get cfg s = some (p, s')) : PoolInv cfg s' (p ::ₘ out) := by
  rw [Pool.get] at h
  by_cases hc : s.cursor = none
  · rw [if_pos hc] at h
    exact PoolInv_pop hwf (PoolInv_allocate hwf hinv hc) h
  · rw [if_neg hc] at h
    exact PoolInv_pop hwf hinv h

theorem PoolInv_put {cfg : PoolConfig} {s1 s' : PoolSt} {out : Multiset Nat}
    {p : Nat}
    (slotsLen : ∀ b ∈ s1.blocks, b.slots.length = cfg.statesPerBlock)
    (bases : basesChain cfg (s1.blocks.map Block.base) s1.nextBase)
    (cursorLt : ∀ c, s1.cursor = some c → c < s1.blocks.length)
    (fcLt : ∀ c, s1.cursor = some c → s1.freeCount < cfg.statesPerBlock)
    (perm : (freeList s1 : Multiset Nat) + out = (allStates cfg s1 : Multiset Nat))
    (nodupAll : (allStates cfg s1).Nodup)
    (bounded : ∀ x ∈ allStates cfg s1, x < s1.nextBase)
    (hmem : p ∈ out)
    (h : Pool.put cfg p s1 = some s') : PoolInv cfg s' (out.erase p) := by
  rw [Pool.put] at h
  rcases hcur : s1.cursor with _ | c
  · rw [hcur] at h
    dsimp only at h
    cases h
  rw [hcur] at h
  dsimp only at h
  rcases hblk : s1.blocks[c]? with _ | blk
  · rw [hblk] at h
    dsimp only at h
    cases h
  rw [hblk] at h
  dsimp only at h
  have hclt : c < s1.blocks.length := cursorLt c hcur
  have hblen : blk.slots.length = cfg.statesPerBlock :=
    slotsLen blk (List.getElem?_mem hblk)
  have hfclt : s1.freeCount < cfg.statesPerBlock := fcLt c hcur
  rw [if_pos (by rw [hblen]; exact hfclt)] at h
  simp only [Option.some.injEq] at h
  subst h
  have hmapbase : ((s1.blocks.set c
      ⟨blk.base, blk.slots.set s1.freeCount p⟩).map Block.base) =
      s1.blocks.map Block.base :=
    map_base_set s1.blocks c blk _ hblk rfl
  have hall : allStates cfg ⟨s1.blocks.set c
      ⟨blk.base, blk.slots.set s1.freeCount p⟩, some c, s1.freeCount + 1,
      s1.nextBase⟩ = allStates cfg s1 := by
    simp only [allStates]
    rw [hmapbase]
  refine ⟨?_, ?_, ?_, ?_, ?_, ?_, ?_, ?_⟩
  · intro b hb
    dsimp only at hb
    rcases List.mem_or_eq_of_mem_set hb with hb' | rfl
    · exact slotsLen b hb'
    · dsimp only
      rw [List.length_set]
      exact hblen
  · dsimp only
    rw [hmapbase]
    exact bases
  · intro c' hc'
    dsimp only at hc' ⊢
    cases hc'
    rw [List.length_set]
    exact hclt
  · intro c' hc'
    dsimp only
    omega
  · intro c' hc'
    dsimp only
    omega
  · have hflr : freeList ⟨s1.blocks.set c
        ⟨blk.base, blk.slots.set s1.freeCount p⟩, some c, s1.freeCount + 1,
        s1.nextBase⟩ =
        freeSlots s1.blocks c 0 ++
          ((blk.slots.set s1.freeCount p).take (s1.freeCount + 1)) := by
      rw [freeList]
      dsimp only
      exact freeSlots_set_cursor s1.blocks c _ _ hclt
    rw [hflr, hall, take_set_succ blk.slots s1.freeCount p (hblen ▸ hfclt)]
    rw [coe_append_snoc, Multiset.cons_erase hmem, ← perm]
    have hfls : freeList s1 = freeSlots s1.blocks c 0 ++ blk.slots.take s1.freeCount := by
      rw [freeList, hcur]
      dsimp only
      exact freeSlots_split s1.blocks c blk _ hblk
    rw [hfls]
  · rw [hall]
    exact nodupAll
  · intro x hx
    rw [hall] at hx
    dsimp only
    exact bounded x hx

theorem PoolInv_recycle {cfg : PoolConfig} (hwf : cfg.WF) {s s' : PoolSt}
    {out : Multiset Nat} {p : Nat} (hinv : PoolInv cfg s out) (hmem : p ∈ out)
    (h : Pool.recycle cfg p s = some s') : PoolInv cfg s' (out.erase p) := by
  obtain ⟨slotsLen, bases, cursorLt, fcPos, fcLe, perm, nodupAll, bounded⟩ := hinv
  rw [Pool.recycle] at h
  by_cases hf : s.freeCount = cfg.statesPerBlock
  · rw [if_pos hf] at h
    rcases hcn : cursorNext s with _ | c'
    · exfalso
      rw [Pool.put] at h
      dsimp only at h
      rw [hcn] at h
      dsimp only at h
      cases h
    · have hc'lt : c' < s.blocks.length := by
        rw [cursorNext] at hcn
        rcases hsc : s.cursor with _ | c0
        · rw [hsc] at hcn
          dsimp only at hcn
          split at hcn
          · cases hcn
          · cases hcn
            rename_i hne
            have : s.blocks ≠ [] := by
              intro hnil
              rw [hnil] at hne
              simp at hne
            exact List.length_pos.mpr this
        · rw [hsc] at hcn
          dsimp only at hcn
          split at hcn
          · cases hcn
            assumption
          · cases hcn
      apply PoolInv_put ?_ ?_ ?_ ?_ ?_ ?_ ?_ hmem h
      · exact slotsLen
      · exact bases
      · intro c hc
        dsimp only at hc
        rw [hcn] at hc
        cases hc
        exact hc'lt
      · intro c hc
        dsimp only
        exact hwf.spb_pos
      · have hflA : freeList { s with cursor := cursorNext s, freeCount := 0 } =
            freeSlots s.blocks c' 0 := by
          rw [freeList]
          dsimp only
          rw [hcn]
        rw [hflA]
        have hallA : allStates cfg { s with cursor := cursorNext s, freeCount := 0 } =
            allStates cfg s := rfl
        rw [hallA]
        rcases hsc : s.cursor with _ | c0
        · have hc0 : c' = 0 := by
            rw [cursorNext, hsc] at hcn
            dsimp only at hcn
            split at hcn
            · cases hcn
            · cases hcn
              rfl
          have hfs : freeList s = [] := by
            rw [freeList, hsc]
          rw [hc0, freeSlots_zero_zero]
          rw [hfs] at perm
          simpa using perm
        · have hc0 : c' = c0 + 1 := by
            rw [cursorNext, hsc] at hcn
            dsimp only at hcn
            split at hcn
            · cases hcn
              rfl
            · cases hcn
          have hc0lt : c0 < s.blocks.length := cursorLt c0 hsc
          rcases hb0 : s.blocks[c0]? with _ | blk0
          · rw [List.getElem?_eq_none_iff] at hb0
            omega
          have hb0len : blk0.slots.length = cfg.statesPerBlock :=
            slotsLen blk0 (List.getElem?_mem hb0)
          have hadv := freeSlots_advance s.blocks c0 blk0 hb0
          rw [hb0len] at hadv
          have hfs : freeList s = freeSlots s.blocks c0 cfg.statesPerBlock := by
            rw [freeList, hsc]
            dsimp only
            rw [hf]
          rw [hc0, hadv, ← hfs]
          exact perm
      · exact nodupAll
      · exact bounded
  · rw [if_neg hf] at h
    apply PoolInv_put slotsLen bases cursorLt ?_ perm nodupAll bounded hmem h
    intro c hc
    have := fcLe c hc
    omega

theorem PoolInv_reach {cfg : PoolConfig} (hwf : cfg.WF)
    {a : PoolSt × Multiset Nat} (h : PoolReach cfg a) :
    PoolInv cfg a.1 a.2 := by
  induction h with
  | init => exact PoolInv_init cfg
  | step hr hs ih =>
    cases hs with
    | get hget => exact PoolInv_get hwf ih hget
    | recycle hm hrec => exact PoolInv_recycle hwf ih hm hrec

/-- C6: in any state reached by a well-formed sequence of `get` and
`recycle` calls, the outstanding pointers are pairwise distinct (no pointer
is concurrently held twice), every outstanding pointer lies in exactly one
allocated block, and within its block it sits at some page `pg` and slot
`st`, i.e. at an offset from its page base that is a multiple of
`size_of_opaque_states`. -/
theorem C6_pool_pointer_invariants (cfg : PoolConfig) (hwf : cfg.WF)
    (s : PoolSt) (out : Multiset Nat) (hreach : PoolReach cfg (s, out)) :
    out.Nodup
    ∧ (∀ p ∈ out, ∃! b : Block, b ∈ s.blocks ∧ p ∈ blockStates cfg b.base)
    ∧ (∀ p ∈ out, ∃ b ∈ s.blocks, ∃ pg < cfg.pagesPerBlock,
        ∃ st < cfg.statesPerPage,
        p = b.base + pg * cfg.pageSize + st * cfg.sizeOfStates) := by
  have hinv := PoolInv_reach hwf hreach
  obtain ⟨slotsLen, bases, cursorLt, fcPos, fcLe, perm, nodupAll, bounded⟩ := hinv
  have hle : out ≤ (↑(allStates cfg s) : Multiset Nat) := by
    rw [← perm]
    exact Multiset.le_add_left _ _
  have hmemAll : ∀ p ∈ out, p ∈ allStates cfg s := by
    intro p hp
    have := Multiset.mem_of_le hle hp
    exact Multiset.mem_coe.mp this
  have hbaseNodup : (s.blocks.map Block.base).Nodup :=
    basesChain_nodup hwf.blockBytes_pos (s.blocks.map Block.base) s.nextBase bases
  have hpair : List.Pairwise (Function.onFun List.Disjoint (blockStates cfg))
      (s.blocks.map Block.base) := (List.nodup_flatMap.mp nodupAll).2
  have hsymm : Symmetric (Function.onFun List.Disjoint (blockStates cfg)) := by
    intro a b hab
    exact List.disjoint_comm.mp hab
  refine ⟨?_, ?_, ?_⟩
  · exact Multiset.nodup_of_le hle (Multiset.coe_nodup.mpr nodupAll)
  · intro p hp
    have hpAll := hmemAll p hp
    rw [allStates, List.mem_flatMap] at hpAll
    obtain ⟨base', hbase', hpin⟩ := hpAll
    rw [List.mem_map] at hbase'
    obtain ⟨b, hb, rfl⟩ := hbase'
    refine ⟨b, ⟨hb, hpin⟩, ?_⟩
    intro b2 hb2
    obtain ⟨hb2mem, hp2⟩ := hb2
    by_cases hbaseEq : b2.base = b.base
    · exact List.inj_on_of_nodup_map hbaseNodup hb2mem hb hbaseEq
    · exfalso
      have hdisj : List.Disjoint (blockStates cfg b2.base) (blockStates cfg b.base) :=
        List.Pairwise.forall hsymm hpair
          (List.mem_map_of_mem Block.base hb2mem)
          (List.mem_map_of_mem Block.base hb)
          (by simpa using hbaseEq)
      exact hdisj hp2 hpin
  · intro p hp
    have hpAll := hmemAll p hp
    rw [allStates, List.mem_flatMap] at hpAll
    obtain ⟨base', hbase', hpin⟩ := hpAll
    rw [List.mem_map] at hbase'
    obtain ⟨b, hb, rfl⟩ := hbase'
    rw [mem_blockStates] at hpin
    obtain ⟨j, hj, rfl⟩ := hpin
    refine ⟨b, hb, j / cfg.statesPerPage, ?_, j % cfg.statesPerPage, ?_, rfl⟩
    · rw [Nat.div_lt_iff_lt_mul hwf.spp_pos]
      exact hj
    · exact Nat.mod_lt _ hwf.spp_pos

/-- C6 witness: pages of 4 bytes holding two 2-byte states, one page per
block; two `get` calls leave the outstanding pointers 0 and 2 distinct, each
inside the unique allocated block at state-aligned offsets. -/
theorem C6_pool_pointer_invariants_witness :
    (0 ::ₘ 2 ::ₘ (0 : Multiset Nat)).Nodup
    ∧ (∀ p ∈ (0 ::ₘ 2 ::ₘ (0 : Multiset Nat)), ∃! b : Block,
        b ∈ (PoolSt.mk [Block.mk 0 [0, 2]] none 2 4).blocks
        ∧ p ∈ blockStates (PoolConfig.mk 4 2 2 1) b.base)
    ∧ (∀ p ∈ (0 ::ₘ 2 ::ₘ (0 : Multiset Nat)),
        ∃ b ∈ (PoolSt.mk [Block.mk 0 [0, 2]] none 2 4).blocks,
        ∃ pg < (PoolConfig.mk 4 2 2 1).pagesPerBlock,
        ∃ st < (PoolConfig.mk 4 2 2 1).statesPerPage,
        p = b.base + pg * (PoolConfig.mk 4 2 2 1).pageSize
          + st * (PoolConfig.mk 4 2 2 1).sizeOfStates) := by
  have h1 : Pool.get (PoolConfig.mk 4 2 2 1) initPool =
      some (2, PoolSt.mk [Block.mk 0 [0, 2]] (some 0) 1 4) := by decide
  have h2 : Pool.get (PoolConfig.mk 4 2 2 1)
      (PoolSt.mk [Block.mk 0 [0, 2]] (some 0) 1 4) =
      some (0, PoolSt.mk [Block.mk 0 [0, 2]] none 2 4) := by decide
  have hreach : PoolReach (PoolConfig.mk 4 2 2 1)
      (PoolSt.mk [Block.mk 0 [0, 2]] none 2 4, 0 ::ₘ 2 ::ₘ 0) :=
    PoolReach.step (PoolReach.step PoolReach.init (PoolStep.get h1))
      (PoolStep.get h2)
  exact C6_pool_pointer_invariants (PoolConfig.mk 4 2 2 1)
    ⟨by decide, by decide, by decide, by decide⟩
    (PoolSt.mk [Block.mk 0 [0, 2]] none 2 4) (0 ::ₘ 2 ::ₘ 0) hreach

end SyncUtils
